import Mathlib

/-!
Shallow embedding of gophen.go, a Go port of the pyphen hyphenation
pattern engine.  Go strings are modelled as their UTF-8 byte sequences
(`List Nat`); words and dictionary lines enter the model as code-point
lists (`List Char`) and are encoded where the Go code holds a string.
Machine integers are modelled as `Int`/`Nat` (dictionary weights are
single digits, so no overflow arises).  Fallible operations (Go panics
and error returns) are modelled with `Option`/`Except`.
-/

namespace Gophen

/-- Go strings viewed as their UTF-8 byte sequence. -/
abbrev GoStr := List Nat

/-- UTF-8 encoding of one code point. -/
def utf8EncodeChar (c : Char) : List Nat :=
  let n := c.toNat
  if n < 128 then [n]
  else if n < 2048 then [192 + n / 64, 128 + n % 64]
  else if n < 65536 then [224 + n / 4096, 128 + n / 64 % 64, 128 + n % 64]
  else [240 + n / 262144, 128 + n / 4096 % 64, 128 + n / 64 % 64, 128 + n % 64]

/-- UTF-8 encoding of a code-point sequence; models building a Go string
from runes (concatenation of Go strings is concatenation of byte lists). -/
def utf8Encode (s : List Char) : GoStr := s.flatMap utf8EncodeChar

/-- Bytes that start a rune in valid UTF-8: everything outside the
continuation range 128..191. -/
def runeByte (b : Nat) : Bool := decide (b < 128) || decide (192 ≤ b)

/-- Models utf8.RuneCountInString on valid UTF-8: every rune contributes
exactly one byte outside the continuation range 128..191, so the rune
count is the number of non-continuation bytes. -/
def runeCount (s : GoStr) : Nat := (s.filter runeByte).length

/-- Models the helper byteIndex of gophen.go literally:
len(s) - len(s[runeIndex:]), where Go's s[runeIndex:] drops BYTES. -/
def byteIndex (s : GoStr) (runeIndex : Nat) : Nat :=
  s.length - (s.drop runeIndex).length

/-- Character class of Go's regexp \d (ASCII digits). -/
def isDigitCh (c : Char) : Bool := decide ('0' ≤ c) && decide (c ≤ '9')

/-- Numeric value of an ASCII digit. -/
def digitVal (c : Char) : Int := (c.toNat - 48 : Nat)

/-- Models unicode.IsSpace on the white space characters that occur in
dictionary files (ASCII white space). -/
def goIsSpace (c : Char) : Bool :=
  c == ' ' || c == '\t' || c == '\n' || c == '\r' ||
    c.toNat == 11 || c.toNat == 12

/-- Models strings.TrimSpace. -/
def trimSpace (l : List Char) : List Char :=
  ((l.dropWhile goIsSpace).reverse.dropWhile goIsSpace).reverse

/-- Digit string to number (most significant first). -/
def digitsVal (ds : List Char) : Nat :=
  ds.foldl (fun a c => 10 * a + (c.toNat - 48)) 0

/-- Auxiliary for atoi: a signed all-digit body, 0 on malformed input. -/
def atoiAux (sign : Int) (ds : List Char) : Int :=
  if ds.isEmpty || !(ds.all isDigitCh) then 0 else sign * (digitsVal ds : Int)

/-- Models the helper atoi of gophen.go: strconv.Atoi with the error
ignored, so any malformed input yields 0 (int64 overflow, which Atoi
also reports as an error, cannot occur for dictionary data and is not
modelled). -/
def atoi : List Char → Int
  | '-' :: rest => atoiAux (-1) rest
  | '+' :: rest => atoiAux 1 rest
  | s => atoiAux 1 s

/-- Models strings.Split on a single separator character: Go's Split
always returns at least one (possibly empty) part. -/
def splitOnChar (sep : Char) : List Char → List (List Char)
  | [] => [[]]
  | c :: rest =>
    if c == sep then [] :: splitOnChar sep rest
    else
      match splitOnChar sep rest with
      | [] => [[c]]
      | p :: ps => (c :: p) :: ps

/-- Hex digit test for the parseHex regexp character class [0-9a-fA-F]. -/
def isHexDigit (c : Char) : Bool :=
  isDigitCh c || (decide ('a' ≤ c) && decide (c ≤ 'f')) ||
    (decide ('A' ≤ c) && decide (c ≤ 'F'))

/-- Value of a hex digit. -/
def hexVal (c : Char) : Nat :=
  if isDigitCh c then c.toNat - 48
  else if decide ('a' ≤ c) && decide (c ≤ 'f') then c.toNat - 87
  else c.toNat - 55

/-- Models parseHex.ReplaceAllStringFunc: each leftmost occurrence of
two carets followed by two hex digits is replaced by the code point the
hex digits denote. -/
def replaceHexFuel : Nat → List Char → List Char
  | 0, l => l
  | _ + 1, [] => []
  | fuel + 1, '^' :: '^' :: a :: b :: rest =>
    if isHexDigit a && isHexDigit b then
      Char.ofNat (16 * hexVal a + hexVal b) :: replaceHexFuel fuel rest
    else '^' :: replaceHexFuel fuel ('^' :: a :: b :: rest)
  | fuel + 1, c :: rest => c :: replaceHexFuel fuel rest

/-- Entry point for the hex substitution: the fuel equals the length of
the line, which each step strictly consumes, so it never runs out. -/
def replaceHex (l : List Char) : List Char := replaceHexFuel l.length l

/-- Matches of the regexp (digit?)(nondigit?) over a nonempty pattern:
each match greedily takes an optional digit then an optional non-digit.
Go's All routines ignore an empty match that abuts the preceding match,
and this regexp consumes at least one character at every position of a
nonempty string, so the matches exactly tile the pattern with no
trailing empty match. -/
def parseMatchesNE : List Char → List (Option Char × Option Char)
  | [] => []
  | [c] =>
    if isDigitCh c then [(some c, none)]
    else [(none, some c)]
  | c :: d :: rest2 =>
    if isDigitCh c then
      if isDigitCh d then (some c, none) :: parseMatchesNE (d :: rest2)
      else (some c, some d) :: parseMatchesNE rest2
    else (none, some c) :: parseMatchesNE (d :: rest2)

/-- Models parse.FindAllStringSubmatch: a nonempty pattern is tiled by
its matches; the empty pattern yields one empty match, since nothing
precedes it that the empty match could abut. -/
def parseMatches (s : List Char) : List (Option Char × Option Char) :=
  if s.isEmpty then [(none, none)] else parseMatchesNE s

/-- Raw weights of a pattern: per match, the digit group's value, with
strconv.Atoi of an empty group defaulting to 0. -/
def rawValues (ms : List (Option Char × Option Char)) : List Int :=
  ms.map fun m => match m.1 with | some c => digitVal c | none => 0

/-- Tag characters of a pattern: the non-digit groups in order; joining
them yields the stored pattern key. -/
def tagChars (ms : List (Option Char × Option Char)) : List Char :=
  ms.filterMap fun m => m.2

/-- Models the Go interface value that is either a plain int weight or a
hyphDataInt whose data field is the three strings change, Itoa index,
Itoa cut (Itoa is injective, so the triple is kept unrendered). -/
inductive HVal where
  | plain (value : Int)
  | tagged (value : Int) (change : List Char) (index : Int) (cut : Int)
deriving DecidableEq, Repr

/-- Numeric value carried by a pattern weight. -/
def hvalValue : HVal → Int
  | .plain v => v
  | .tagged v _ _ _ => v

/-- Models the struct AlternativeParser of gophen.go. -/
structure AlternativeParser where
  change : List Char
  index : Int
  cut : Int
deriving DecidableEq, Repr

/-- Models newAlternativeParser: the clause is split on commas; reading
parts[1] or parts[2] of a clause with fewer than three parts is an
index-out-of-range panic, modelled as none. -/
def newAlternativeParser (pattern alternative : List Char) : Option AlternativeParser :=
  match splitOnChar ',' alternative with
  | p0 :: p1 :: p2 :: _ =>
    some { change := p0
           index := atoi p1 + (if pattern.head? = some '.' then 1 else 0)
           cut := atoi p2 }
  | _ => none

/-- Models one call of AlternativeParser.Parse: the counter is first
decremented, then an odd weight becomes a tagged weight carrying
(change, counter after the decrement, cut) and an even weight stays a
plain weight.  Returns the updated parser state with the result. -/
def parseStep (p : AlternativeParser) (value : Int) : AlternativeParser × HVal :=
  let p2 : AlternativeParser := { p with index := p.index - 1 }
  if value % 2 == 1 then (p2, .tagged value p2.change p2.index p2.cut)
  else (p2, .plain value)

/-- Iterates AlternativeParser.Parse over the raw weights of a line, in
the order Go's pattern loop calls the factory. -/
def parseRun (p : AlternativeParser) : List Int → List HVal
  | [] => []
  | v :: rest => ((parseStep p v).2) :: parseRun (parseStep p v).1 rest

/-- Applies the factory of a line: the identity factory wraps each raw
weight as a plain int, an alternative parser runs statefully. -/
def factoryApply : Option AlternativeParser → List Int → List HVal
  | none, vs => vs.map .plain
  | some p, vs => parseRun p vs

/-- Models one stored pattern entry: the trim offset and the trimmed
weight list. -/
structure PatEntry where
  start : Nat
  values : List HVal
deriving DecidableEq, Repr

/-- Models struct HyphDict (the cache is pure memoization keyed by the
lowercased word and holding exactly the value Positions computes, so it
is omitted from the pure model). -/
structure HyphDict where
  patterns : List (GoStr × PatEntry)
  maxlen : Nat
deriving DecidableEq, Repr

/-- Models assignment to a Go map key: any previous binding of the key
is replaced. -/
def mapInsert (ps : List (GoStr × PatEntry)) (k : GoStr) (e : PatEntry) :
    List (GoStr × PatEntry) :=
  (ps.filter fun p => !(p.1 == k)) ++ [(k, e)]

/-- Load-time errors: the invalid-format error return of NewHyphDict and
the index-out-of-range panic inside newAlternativeParser. -/
inductive LoadErr where
  | badFormat
  | indexOutOfRange
deriving DecidableEq, Repr

deriving instance DecidableEq for Except

/-- Comment prefixes and directives skipped by NewHyphDict. -/
def ignoredHeads : List (List Char) :=
  [['%'], ['#'],
   ['L','E','F','T','H','Y','P','H','E','N','M','I','N'],
   ['R','I','G','H','T','H','Y','P','H','E','N','M','I','N'],
   ['C','O','M','P','O','U','N','D','L','E','F','T','H','Y','P','H','E','N','M','I','N'],
   ['C','O','M','P','O','U','N','D','R','I','G','H','T','H','Y','P','H','E','N','M','I','N']]

/-- A pattern line has an exception clause when it contains both a slash
and an equals sign; the line is then split at the first slash. -/
def hasClause (line : List Char) : Bool :=
  line.contains '/' && line.contains '='

/-- Base pattern of a line (the part before the first slash when an
exception clause is present). -/
def lineBase (line : List Char) : List Char :=
  if hasClause line then line.takeWhile (fun c => !(c == '/')) else line

/-- Exception clause of a line (the part after the first slash). -/
def lineAlt (line : List Char) : List Char :=
  (line.dropWhile (fun c => !(c == '/'))).drop 1

/-- Factory chosen for a line: no clause gives the identity factory;
a clause builds an AlternativeParser, whose construction can panic. -/
def lineParser (line : List Char) : Option (Option AlternativeParser) :=
  if hasClause line then (newAlternativeParser (lineBase line) (lineAlt line)).map some
  else some none

/-- Weight list of an already trimmed and hex-substituted line, after
the factory is applied; none models the panic of a malformed clause. -/
def lineValuesCore (line : List Char) : Option (List HVal) :=
  (lineParser line).map fun f => factoryApply f (rawValues (parseMatches (lineBase line)))

/-- hasNonZero of gophen.go: a positive plain weight or any tagged
weight counts as signal. -/
def hasSignal (vs : List HVal) : Bool :=
  vs.any fun v => match v with
    | .plain i => decide (0 < i)
    | .tagged _ _ _ _ => true

/-- The weight Go's trim loops skip: a plain zero. -/
def isPlainZero (v : HVal) : Bool := v == .plain 0

/-- Leading trim offset (the start index of gophen.go). -/
def trimStart (vs : List HVal) : Nat := (vs.takeWhile isPlainZero).length

/-- Trimmed weight span values[start:end]: leading and trailing plain
zeros removed (Go's two trim loops, which the hasNonZero guard keeps
from running off the slice). -/
def trimZeros (vs : List HVal) : List HVal :=
  ((vs.dropWhile isPlainZero).reverse.dropWhile isPlainZero).reverse

/-- Models one iteration of the pattern loop of NewHyphDict on an
already whitespace-trimmed line. -/
def processLine (st : HyphDict) (rawLine : List Char) : Except LoadErr HyphDict :=
  let line := trimSpace rawLine
  if line.isEmpty then .ok st
  else if ignoredHeads.any (fun p => p.isPrefixOf line) then .ok st
  else
    let line2 := replaceHex line
    match lineValuesCore line2 with
    | none => .error .indexOutOfRange
    | some values =>
      if hasSignal values then
        let ms := parseMatches (lineBase line2)
        let key := utf8Encode (tagChars ms)
        .ok { patterns := mapInsert st.patterns key ⟨trimStart values, trimZeros values⟩
              maxlen := if ms.length > st.maxlen then ms.length else st.maxlen }
      else .ok st

/-- Models NewHyphDict from the line split onward: the first line is the
encoding directive and is skipped, the remaining lines are parsed in
order.  The embed.FS read and the cp1251 byte decode are I/O outside the
model; lines enter as already decoded code-point lists. -/
def NewHyphDict (lines : List (List Char)) : Except LoadErr HyphDict :=
  if lines.length < 2 then .error .badFormat
  else (lines.drop 1).foldlM processLine ⟨[], 0⟩

/-- Models the ASCII fast path of the rune-wise case folding
strings.ToLower performs.  Non-ASCII code points are left unchanged
here, whereas Go also applies the Unicode simple case mappings; the
properties proved below do not depend on what the mapping does, only
on it being applied rune-wise (so word length is preserved). -/
def goToLowerChar (c : Char) : Char :=
  if decide ('A' ≤ c) && decide (c ≤ 'Z') then Char.ofNat (c.toNat + 32) else c

/-- strings.ToLower over a code-point sequence. -/
def listToLower (s : List Char) : List Char := s.map goToLowerChar

/-- One emitted break point: hyphDataInt as returned by Positions, the
offset with the optional exception triple. -/
structure DataInt where
  value : Int
  data : Option (List Char × Int × Int)
deriving DecidableEq, Repr

/-- Numeric value an accumulator slot contributes to the max comparison:
the Go type switch reads 0 from an empty slot and the value field from
either kind of weight. -/
def refCurrent : Option HVal → Int
  | some (.plain v) => v
  | some (.tagged v _ _ _) => v
  | none => 0

/-- Models the max-merge body of the scan: the matched weight overwrites
the slot exactly when its value is strictly greater than the current
value; a weight with exception data is written back as a hyphDataInt,
a plain weight as an int. -/
def mergeSlot (old : Option HVal) (w : HVal) : Option HVal :=
  match w with
  | .plain pv => if pv > refCurrent old then some (.plain pv) else old
  | .tagged pv c ix cu =>
    if pv > refCurrent old then some (.tagged pv c ix cu) else old

/-- Models the inner weight loop: slot base+k is read and merged for the
k-th value; reading past the end of the accumulator is the Go slice
panic, modelled as none. -/
def applyValues (base : Nat) (vs : List HVal) (refs : List (Option HVal)) :
    Option (List (Option HVal)) :=
  match vs with
  | [] => some refs
  | v :: rest =>
    match refs[base]? with
    | none => none
    | some old => applyValues (base + 1) rest (refs.set base (mergeSlot old v))

/-- Window index pairs (i, j) visited by the two scan loops of
Positions: i over [0, rc-1), j over [i+1, min(i+maxlen, rc)+1). -/
def windowsFor (maxlen rc : Nat) : List (Nat × Nat) :=
  (List.range (rc - 1)).flatMap fun i =>
    (List.range' (i + 1) (min (i + maxlen) rc + 1 - (i + 1))).map fun j => (i, j)

/-- Models one window of the scan: the subword Go builds is the byte
slice pointedWord[byteIndex(pw,i):byteIndex(pw,j)]; a hit merges the
trimmed weights starting at slot i+start. -/
def scanStep (pats : List (GoStr × PatEntry)) (pw : GoStr)
    (refs : List (Option HVal)) (ij : Nat × Nat) : Option (List (Option HVal)) :=
  let subWord := (pw.drop (byteIndex pw ij.1)).take (byteIndex pw ij.2 - byteIndex pw ij.1)
  match List.lookup subWord pats with
  | none => some refs
  | some e => applyValues (ij.1 + e.start) e.values refs

/-- The accumulator after the full scan of a pointed word: an array of
runeCount+1 empty slots folded through every window in loop order. -/
def scanRefs (hd : HyphDict) (pw : GoStr) : Option (List (Option HVal)) :=
  (windowsFor hd.maxlen (runeCount pw)).foldlM (scanStep hd.patterns pw)
    (List.replicate (runeCount pw + 1) none)

/-- Models the final collection loop: slot i with an odd value emits
break point i-1, carrying the exception data when present. -/
def extractPoints (refs : List (Option HVal)) : List DataInt :=
  refs.enum.filterMap fun p =>
    match p.2 with
    | some (.plain v) => if v % 2 ≠ 0 then some ⟨(p.1 : Int) - 1, none⟩ else none
    | some (.tagged v c ix cu) =>
      if v % 2 ≠ 0 then some ⟨(p.1 : Int) - 1, some (c, ix, cu)⟩ else none
    | none => none

/-- Models HyphDict.Positions: lowercase the word, pad it with boundary
dots, scan, and collect odd slots; none models the accumulator panic. -/
def Positions (hd : HyphDict) (word : List Char) : Option (List DataInt) :=
  (scanRefs hd (utf8Encode ('.' :: listToLower word ++ ['.']))).map extractPoints

/-- Subword selection as the specification words it: the window [i, j)
selects code points i..j-1 of the padded word.  Second definition for
comparison with the byte-sliced scanStep of the source. -/
def scanStepSpec (pats : List (GoStr × PatEntry)) (pwChars : List Char)
    (refs : List (Option HVal)) (ij : Nat × Nat) : Option (List (Option HVal)) :=
  let subWord := utf8Encode ((pwChars.drop ij.1).take (ij.2 - ij.1))
  match List.lookup subWord pats with
  | none => some refs
  | some e => applyValues (ij.1 + e.start) e.values refs

/-- Positions with the code-point-indexed subword the specification
mandates, kept otherwise identical to the source scan. -/
def PositionsSpecIndexed (hd : HyphDict) (word : List Char) : Option (List DataInt) :=
  (((windowsFor hd.maxlen ('.' :: listToLower word ++ ['.']).length).foldlM
      (scanStepSpec hd.patterns ('.' :: listToLower word ++ ['.']))
      (List.replicate (('.' :: listToLower word ++ ['.']).length + 1) none)).map
    extractPoints)

/-- Weight list of one raw dictionary line exactly as the pattern loop
computes it (whitespace trim, then hex substitution, then clause split
and factory application); none models the clause panic. -/
def lineValues (rawLine : List Char) : Option (List HVal) :=
  lineValuesCore (replaceHex (trimSpace rawLine))

/-- Lines whose processing cannot reach the out-of-range panic of
newAlternativeParser: no exception clause, or a clause with at least
three comma-separated parts. -/
def lineSafe (rawLine : List Char) : Bool :=
  let line2 := replaceHex (trimSpace rawLine)
  !(hasClause line2) || decide (2 < (splitOnChar ',' (lineAlt line2)).length)

/-! Concrete dictionaries used to evaluate the engine at specific
inputs.  Each is the parse of a small dictionary file given next to it. -/

def encLine : List Char := ['U','T','F','-','8']

def a1lines : List (List Char) := [encLine, ['a','1']]

def a1dict : HyphDict := ⟨[([97], ⟨1, [.plain 1]⟩)], 2⟩

def c1lines : List (List Char) := [encLine, ['1','a']]

def c1dict : HyphDict := ⟨[([97], ⟨0, [.plain 1]⟩)], 1⟩

def c2lines : List (List Char) := [encLine, ['a','1','b'], ['2','b']]

def c2dict : HyphDict := ⟨[([97, 98], ⟨1, [.plain 1]⟩), ([98], ⟨0, [.plain 2]⟩)], 2⟩

def c4badLines : List (List Char) := [encLine, ['a','1','/','x','=','y']]

def c4okLines : List (List Char) := [encLine, ['a','1','/','x','=','y',',','p',',','q']]

def c4okDict : HyphDict := ⟨[([97], ⟨1, [.tagged 1 ['x','=','y'] (-2) 0]⟩)], 2⟩

def c6lines : List (List Char) := [encLine, ['1','.']]

def c6dict : HyphDict := ⟨[([46], ⟨0, [.plain 1]⟩)], 1⟩

def c7lines : List (List Char) := [encLine, ['a','1','2','3']]

def c7dict : HyphDict := ⟨[([97], ⟨1, [.plain 1, .plain 2, .plain 3]⟩)], 4⟩

/-! Foundational lemmas about the byte-level string model. -/

theorem byteIndex_eq (s : GoStr) (i : Nat) (h : i ≤ s.length) : byteIndex s i = i := by
  simp [byteIndex, List.length_drop]; omega

theorem runeCount_le_length (s : GoStr) : runeCount s ≤ s.length :=
  List.length_filter_le _ s

theorem cont_byte_false (x : Nat) : runeByte (128 + x % 64) = false := by
  have h64 : x % 64 < 64 := Nat.mod_lt _ (by omega)
  simp only [runeByte, Bool.or_eq_false_iff, decide_eq_false_iff_not]
  omega

theorem encodeChar_runeCount (c : Char) :
    ((utf8EncodeChar c).filter runeByte).length = 1 := by
  unfold utf8EncodeChar
  by_cases h1 : c.toNat < 128
  · simp only [h1, if_pos]
    have hb : runeByte c.toNat = true := by simp [runeByte]; omega
    simp [List.filter, hb]
  · by_cases h2 : c.toNat < 2048
    · have hb : runeByte (192 + c.toNat / 64) = true := by simp [runeByte]
      simp [h1, h2, List.filter, hb, cont_byte_false]
    · by_cases h3 : c.toNat < 65536
      · have hb : runeByte (224 + c.toNat / 4096) = true := by
          simp only [runeByte, Bool.or_eq_true, decide_eq_true_eq]; omega
        simp [h1, h2, h3, List.filter, hb, cont_byte_false]
      · have hb : runeByte (240 + c.toNat / 262144) = true := by
          simp only [runeByte, Bool.or_eq_true, decide_eq_true_eq]; omega
        simp [h1, h2, h3, List.filter, hb, cont_byte_false]

theorem runeCount_encode (s : List Char) : runeCount (utf8Encode s) = s.length := by
  induction s with
  | nil => rfl
  | cons c rest ih =>
    have hsplit : utf8Encode (c :: rest) = utf8EncodeChar c ++ utf8Encode rest := by
      simp [utf8Encode]
    rw [hsplit]
    simp only [runeCount, List.filter_append, List.length_append, List.length_cons]
    rw [encodeChar_runeCount c]
    simp only [runeCount] at ih
    omega

/-! Claim theorems. -/

/-- C1: the claim says the padded word is indexed by code point, never
by storage byte.  The code's byteIndex returns its rune index unchanged
(shown at rune index 2 of ".éa.", whose true byte offset is 3), so the
scan slices bytes at rune-count positions: with the single pattern "1a"
the word "éa" yields no break point, while the code-point-indexed scan
of the specification finds the break before the final "a" at offset 1. -/
theorem C1_byte_index_code_bug :
    NewHyphDict c1lines = .ok c1dict ∧
    byteIndex (utf8Encode ['.', 'é', 'a', '.']) 2 = 2 ∧
    (utf8Encode (['.', 'é', 'a', '.'].take 2)).length = 3 ∧
    Positions c1dict ['é', 'a'] = some [] ∧
    PositionsSpecIndexed c1dict ['é', 'a'] = some [⟨1, none⟩] := by
  refine ⟨by decide, by decide, by decide, by decide, by decide⟩

/-- C2: the accumulator merge is a strict max-merge: a weight overwrites
a slot exactly when its value is strictly greater, an equal or smaller
weight leaves the slot unchanged, and the scan of "ab" against the
overlapping patterns "a1b" and "2b" leaves merged weight 2 (never the
sum 3) in the shared slot. -/
theorem C2_strict_max_merge :
    (∀ (old : Option HVal) (w : HVal),
      hvalValue w > refCurrent old → mergeSlot old w = some w) ∧
    (∀ (old : Option HVal) (w : HVal),
      hvalValue w ≤ refCurrent old → mergeSlot old w = old) ∧
    NewHyphDict c2lines = .ok c2dict ∧
    scanRefs c2dict (utf8Encode ['.', 'a', 'b', '.']) =
      some [none, none, some (.plain 2), none, none] ∧
    Positions c2dict ['a', 'b'] = some [] := by
  refine ⟨?_, ?_, by decide, by decide, by decide⟩
  · intro old w h
    cases w <;> simp_all [mergeSlot, hvalValue]
  · intro old w h
    cases w <;> simp_all [mergeSlot, hvalValue]

/-- C2 witness: weight 2 overwrites a slot holding 1, and an equal
weight 2 does not overwrite. -/
theorem C2_strict_max_merge_witness :
    mergeSlot (some (.plain 1)) (.plain 2) = some (.plain 2) ∧
    mergeSlot (some (.plain 2)) (.plain 2) = some (.plain 2) :=
  ⟨C2_strict_max_merge.1 _ _ (by decide), C2_strict_max_merge.2.1 _ _ (by decide)⟩

theorem parseStep_fst (p : AlternativeParser) (v : Int) :
    (parseStep p v).1 = ⟨p.change, p.index - 1, p.cut⟩ := by
  unfold parseStep
  split <;> rfl

theorem parseRun_getElem (p : AlternativeParser) (vs : List Int) (n : Nat) (v : Int)
    (h : vs[n]? = some v) :
    (parseRun p vs)[n]? = some
      (if v % 2 == 1 then .tagged v p.change (p.index - (n + 1)) p.cut
       else .plain v) := by
  induction vs generalizing p n with
  | nil => simp at h
  | cons a rest ih =>
    cases n with
    | zero =>
      simp only [List.getElem?_cons_zero, Option.some.injEq] at h
      subst h
      simp only [parseRun, List.getElem?_cons_zero, Option.some.injEq]
      unfold parseStep
      split <;> simp
    | succ m =>
      simp only [List.getElem?_cons_succ] at h
      show (parseRun p (a :: rest))[m + 1]? = _
      simp only [parseRun, List.getElem?_cons_succ]
      rw [ih (parseStep p a).1 m h, parseStep_fst]
      have harith : p.index - 1 - (m + 1) = p.index - (m + 1 + 1) := by omega
      simp [harith]

/-- C8: the exception-clause parser built from base pattern and clause
"change,index,cut" starts its counter at the numeric index value, plus
one when the base pattern begins with ".", and on the n-th invocation
first decrements the counter, then returns an odd incoming weight as a
tagged weight carrying (change text, counter value at this call, cut)
and an even incoming weight unchanged as a plain weight. -/
theorem C8_parse_transform (pattern alt : List Char) (q : AlternativeParser)
    (hq : newAlternativeParser pattern alt = some q)
    (vs : List Int) (n : Nat) (v : Int) (hv : vs[n]? = some v) :
    q.change = (splitOnChar ',' alt).headD [] ∧
    q.index = atoi ((splitOnChar ',' alt).getD 1 []) +
      (if pattern.head? = some '.' then 1 else 0) ∧
    q.cut = atoi ((splitOnChar ',' alt).getD 2 []) ∧
    (parseRun q vs)[n]? = some
      (if v % 2 == 1 then .tagged v q.change (q.index - (n + 1)) q.cut
       else .plain v) := by
  unfold newAlternativeParser at hq
  rcases hsplit : splitOnChar ',' alt with _ | ⟨p0, _ | ⟨p1, _ | ⟨p2, ps⟩⟩⟩ <;>
    rw [hsplit] at hq <;> simp only [Option.some.injEq, reduceCtorEq] at hq
  subst hq
  refine ⟨rfl, rfl, rfl, parseRun_getElem _ _ _ _ hv⟩

/-- C8 witness: clause "x,2,3" with dot-prefixed base ".a": the counter
starts at 3, the first call decrements it to 2 and tags the odd weight
1 with ("x", 2, 3). -/
theorem C8_parse_transform_witness :
    (⟨['x'], 3, 3⟩ : AlternativeParser).change = (splitOnChar ',' ['x',',','2',',','3']).headD [] ∧
    (⟨['x'], 3, 3⟩ : AlternativeParser).index =
      atoi ((splitOnChar ',' ['x',',','2',',','3']).getD 1 []) +
        (if (['.','a'] : List Char).head? = some '.' then 1 else 0) ∧
    (⟨['x'], 3, 3⟩ : AlternativeParser).cut =
      atoi ((splitOnChar ',' ['x',',','2',',','3']).getD 2 []) ∧
    (parseRun (⟨['x'], 3, 3⟩ : AlternativeParser) [1])[0]? = some
      (if (1 : Int) % 2 == 1
       then .tagged 1 (⟨['x'], 3, 3⟩ : AlternativeParser).change
         ((⟨['x'], 3, 3⟩ : AlternativeParser).index - (0 + 1))
         (⟨['x'], 3, 3⟩ : AlternativeParser).cut
       else .plain 1) :=
  C8_parse_transform ['.','a'] ['x',',','2',',','3'] ⟨['x'], 3, 3⟩ (by decide)
    [1] 0 1 (by decide)

theorem applyValues_length (vs : List HVal) (base : Nat) (refs out : List (Option HVal))
    (h : applyValues base vs refs = some out) : out.length = refs.length := by
  induction vs generalizing base refs with
  | nil =>
    unfold applyValues at h
    simp only [Option.some.injEq] at h
    rw [← h]
  | cons v rest ih =>
    unfold applyValues at h
    split at h
    · exact absurd h (by simp)
    · have := ih (base + 1) _ h
      simpa using this

theorem scanStep_length (pats : List (GoStr × PatEntry)) (pw : GoStr)
    (refs out : List (Option HVal)) (ij : Nat × Nat)
    (h : scanStep pats pw refs ij = some out) : out.length = refs.length := by
  unfold scanStep at h
  dsimp only at h
  split at h
  · simp only [Option.some.injEq] at h
    rw [← h]
  · exact applyValues_length _ _ _ _ h

theorem scanFold_length (pats : List (GoStr × PatEntry)) (pw : GoStr) :
    ∀ (ws : List (Nat × Nat)) (refs out : List (Option HVal)),
      ws.foldlM (scanStep pats pw) refs = some out → out.length = refs.length := by
  intro ws
  induction ws with
  | nil =>
    intro refs out h
    simp only [List.foldlM_nil] at h
    cases h
    rfl
  | cons w ws ih =>
    intro refs out h
    rw [List.foldlM_cons] at h
    cases hs : scanStep pats pw refs w with
    | none => rw [hs] at h; exact absurd h (by simp)
    | some r1 =>
      rw [hs] at h
      simp only [Option.bind_eq_bind, Option.some_bind] at h
      rw [ih r1 out h, scanStep_length pats pw refs r1 w hs]

theorem extractPoints_mem (refs : List (Option HVal)) (p : DataInt)
    (h : p ∈ extractPoints refs) :
    ∃ i, i < refs.length ∧ p.value = (i : Int) - 1 := by
  unfold extractPoints at h
  rw [List.mem_filterMap] at h
  obtain ⟨pair, hmem, hf⟩ := h
  refine ⟨pair.1, List.fst_lt_of_mem_enum hmem, ?_⟩
  rcases pair with ⟨i, ref⟩
  rcases ref with _ | hv
  · simp at hf
  · rcases hv with v | ⟨v, c, ix, cu⟩ <;> dsimp at hf <;> split at hf <;>
      simp_all <;> rw [← hf]

/-- C5 as stated fails: with the single pattern "a1" the word "a" gets
the break point offset 1, which is not strictly below the word length 1
(the pattern places its weight at the end-of-word boundary). -/
theorem C5_offset_counterexample :
    NewHyphDict a1lines = .ok a1dict ∧
    Positions a1dict ['a'] = some [⟨1, none⟩] ∧
    ¬((1 : Int) < ([('a' : Char)].length : Int)) := by
  refine ⟨by decide, by decide, by decide⟩

/-- C5 amended: every emitted break point offset o satisfies
-1 ≤ o ≤ length(word) + 1; the claimed 0 ≤ o < length(word) can fail
for patterns whose weights sit on the boundary markers. -/
theorem C5_offset_bounds_amended (hd : HyphDict) (w : List Char) (pts : List DataInt)
    (h : Positions hd w = some pts) :
    ∀ p ∈ pts, -1 ≤ p.value ∧ p.value ≤ (w.length : Int) + 1 := by
  intro p hp
  unfold Positions at h
  cases hs : scanRefs hd (utf8Encode ('.' :: listToLower w ++ ['.'])) with
  | none => rw [hs] at h; exact absurd h (by simp)
  | some refs =>
    rw [hs] at h
    simp only [Option.map_some', Option.some.injEq] at h
    subst h
    obtain ⟨i, hi, hv⟩ := extractPoints_mem refs p hp
    unfold scanRefs at hs
    have hlen := scanFold_length hd.patterns _ _ _ _ hs
    rw [List.length_replicate] at hlen
    have hrc : runeCount (utf8Encode ('.' :: listToLower w ++ ['.'])) = w.length + 2 := by
      rw [runeCount_encode]
      simp [listToLower]
    rw [hlen, hrc] at hi
    rw [hv]
    omega

/-- C5 witness: the amended bounds at the concrete dictionary "a1" and
word "a", whose single break point has offset 1. -/
theorem C5_offset_bounds_witness :
    -1 ≤ (⟨1, none⟩ : DataInt).value ∧
    (⟨1, none⟩ : DataInt).value ≤ (([('a' : Char)].length : Nat) : Int) + 1 :=
  C5_offset_bounds_amended a1dict ['a'] [⟨1, none⟩] (by decide) ⟨1, none⟩ (by decide)

theorem mem_windowsFor {ml rc i j : Nat} (h : (i, j) ∈ windowsFor ml rc) :
    i < rc - 1 ∧ i + 1 ≤ j ∧ j ≤ min (i + ml) rc := by
  unfold windowsFor at h
  rw [List.mem_flatMap] at h
  obtain ⟨a, ha, hm⟩ := h
  rw [List.mem_map] at hm
  obtain ⟨j', hj', heq⟩ := hm
  cases heq
  rw [List.mem_range] at ha
  rw [List.mem_range'_1] at hj'
  omega

theorem applyValues_cons_some (base : Nat) (v : HVal) (rest : List HVal)
    (refs : List (Option HVal)) (old : Option HVal) (hx : refs[base]? = some old) :
    applyValues base (v :: rest) refs =
      applyValues (base + 1) rest (refs.set base (mergeSlot old v)) := by
  conv_lhs => unfold applyValues
  rw [hx]

theorem applyValues_some (vs : List HVal) (base : Nat) (refs : List (Option HVal))
    (h : base + vs.length ≤ refs.length) : ∃ out, applyValues base vs refs = some out := by
  induction vs generalizing base refs with
  | nil => exact ⟨refs, rfl⟩
  | cons v rest ih =>
    have hb : base < refs.length := by
      simp only [List.length_cons] at h
      omega
    have hget := List.getElem?_eq_getElem hb
    rw [applyValues_cons_some base v rest refs _ hget]
    apply ih
    simp only [List.length_set]
    simp only [List.length_cons] at h
    omega

theorem lookup_mem_assoc {β : Type} (k : GoStr) (l : List (GoStr × β)) (e : β)
    (h : List.lookup k l = some e) : (k, e) ∈ l := by
  induction l with
  | nil => simp [List.lookup] at h
  | cons a t ih =>
    rcases a with ⟨k1, e1⟩
    rw [List.lookup] at h
    rcases hb : (k == k1) with _ | _
    · rw [hb] at h
      exact List.mem_cons_of_mem _ (ih h)
    · rw [hb] at h
      simp only [Option.some.injEq] at h
      have hk : k = k1 := eq_of_beq hb
      subst hk
      subst h
      exact List.mem_cons_self _ _

theorem scanStep_some (pats : List (GoStr × PatEntry)) (pw : GoStr)
    (refs : List (Option HVal)) (i j : Nat)
    (hwf : ∀ p ∈ pats, p.2.start + p.2.values.length ≤ p.1.length + 1)
    (hij : i + 1 ≤ j) (hj : j ≤ runeCount pw)
    (hlen : refs.length = runeCount pw + 1) :
    ∃ out, scanStep pats pw refs (i, j) = some out := by
  have hjb : j ≤ pw.length := le_trans hj (runeCount_le_length pw)
  have hib : i ≤ pw.length := by omega
  unfold scanStep
  dsimp only
  rw [byteIndex_eq pw i hib, byteIndex_eq pw j hjb]
  cases hl : List.lookup ((pw.drop i).take (j - i)) pats with
  | none => exact ⟨refs, rfl⟩
  | some e =>
    have hsublen : ((pw.drop i).take (j - i)).length = j - i := by
      simp only [List.length_take, List.length_drop]
      omega
    have hmem := lookup_mem_assoc _ _ _ hl
    have hcond := hwf _ hmem
    simp only at hcond
    rw [hsublen] at hcond
    apply applyValues_some
    omega

theorem scanFold_some (pats : List (GoStr × PatEntry)) (pw : GoStr)
    (hwf : ∀ p ∈ pats, p.2.start + p.2.values.length ≤ p.1.length + 1) :
    ∀ (ws : List (Nat × Nat)) (refs : List (Option HVal)),
      (∀ w ∈ ws, w.1 + 1 ≤ w.2 ∧ w.2 ≤ runeCount pw) →
      refs.length = runeCount pw + 1 →
      ∃ out, ws.foldlM (scanStep pats pw) refs = some out := by
  intro ws
  induction ws with
  | nil => exact fun refs _ _ => ⟨refs, rfl⟩
  | cons w ws ih =>
    intro refs hws hlen
    rcases w with ⟨i, j⟩
    obtain ⟨r1, hr1⟩ := scanStep_some pats pw refs i j hwf
      (hws (i, j) (List.mem_cons_self _ _)).1 (hws (i, j) (List.mem_cons_self _ _)).2 hlen
    have hr1len : r1.length = runeCount pw + 1 := by
      rw [scanStep_length pats pw refs r1 (i, j) hr1, hlen]
    obtain ⟨out, hout⟩ := ih r1 (fun x hx => hws x (List.mem_cons_of_mem _ hx)) hr1len
    refine ⟨out, ?_⟩
    rw [List.foldlM_cons, hr1]
    simpa using hout

/-- C7 as stated fails: NewHyphDict accepts the pattern "a123", whose
trimmed weight span is longer than its one-letter key, and Positions on
the word "a" then writes past the end of the accumulator (a Go slice
index panic). -/
theorem C7_panic_counterexample :
    NewHyphDict c7lines = .ok c7dict ∧ Positions c7dict ['a'] = none := by
  refine ⟨by decide, by decide⟩

/-- C7 amended: Positions terminates normally, with every accumulator
write in bounds, for every dictionary whose stored entries keep their
trim offset plus trimmed length within key length + 1 (true of standard
patterns, where digits singly interleave the letters). -/
theorem C7_no_panic_amended (hd : HyphDict) (w : List Char)
    (hwf : ∀ p ∈ hd.patterns, p.2.start + p.2.values.length ≤ p.1.length + 1) :
    ∃ pts, Positions hd w = some pts := by
  unfold Positions scanRefs
  obtain ⟨out, hout⟩ := scanFold_some hd.patterns
    (utf8Encode ('.' :: listToLower w ++ ['.'])) hwf
    (windowsFor hd.maxlen (runeCount (utf8Encode ('.' :: listToLower w ++ ['.']))))
    (List.replicate (runeCount (utf8Encode ('.' :: listToLower w ++ ['.'])) + 1) none)
    (fun x hx => by
      rcases x with ⟨i, j⟩
      have hm := mem_windowsFor hx
      refine ⟨hm.2.1, le_trans hm.2.2 (min_le_right _ _)⟩)
    (List.length_replicate _ _)
  rw [hout]
  exact ⟨extractPoints out, rfl⟩

/-- C7 witness: the dictionary "a1" satisfies the entry condition, so
Positions cannot fail on it, shown at the word "a". -/
theorem C7_no_panic_witness : ∃ pts, Positions a1dict ['a'] = some pts :=
  C7_no_panic_amended a1dict ['a'] (by decide)

theorem scanFold_miss (pats : List (GoStr × PatEntry)) (pw : GoStr)
    (ws : List (Nat × Nat)) (refs : List (Option HVal))
    (hmiss : ∀ w ∈ ws,
      List.lookup ((pw.drop (byteIndex pw w.1)).take (byteIndex pw w.2 - byteIndex pw w.1))
        pats = none) :
    ws.foldlM (scanStep pats pw) refs = some refs := by
  induction ws with
  | nil => rfl
  | cons w ws ih =>
    rw [List.foldlM_cons]
    have hstep : scanStep pats pw refs w = some refs := by
      unfold scanStep
      dsimp only
      rw [hmiss w (List.mem_cons_self _ _)]
    rw [hstep]
    simpa using ih fun x hx => hmiss x (List.mem_cons_of_mem _ hx)

/-- C6 as stated fails: the degenerate pattern "1." is stored under the
boundary-marker key ".", and the scan of the empty word matches it at
the leading boundary, emitting break point -1. -/
theorem C6_empty_counterexample :
    NewHyphDict c6lines = .ok c6dict ∧
    Positions c6dict [] = some [⟨-1, none⟩] ∧
    Positions c6dict [] ≠ some [] := by
  refine ⟨by decide, by decide, by decide⟩

/-- C6 amended: Positions on the empty word returns no break points
provided neither "." nor ".." is a stored pattern key (the padded word
".." offers exactly those two windows; a pattern keyed by boundary
markers only can still match). -/
theorem C6_empty_word_amended (hd : HyphDict)
    (h1 : List.lookup [46] hd.patterns = none)
    (h2 : List.lookup [46, 46] hd.patterns = none) :
    Positions hd [] = some [] := by
  unfold Positions
  have hpw : utf8Encode ('.' :: listToLower [] ++ ['.']) = [46, 46] := by decide
  rw [hpw]
  unfold scanRefs
  have hrc : runeCount [46, 46] = 2 := by decide
  rw [hrc]
  rw [scanFold_miss hd.patterns [46, 46] _ _ ?_]
  · rfl
  · intro w hw
    have hm := mem_windowsFor hw
    rcases w with ⟨i, j⟩
    simp only at hm
    have hi : i = 0 := by omega
    have hj : j = 1 ∨ j = 2 := by omega
    subst hi
    rcases hj with hj | hj <;> subst hj
    · rw [show byteIndex [46, 46] 0 = 0 from rfl, show byteIndex [46, 46] 1 = 1 from rfl]
      exact h1
    · rw [show byteIndex [46, 46] 0 = 0 from rfl, show byteIndex [46, 46] 2 = 2 from rfl]
      exact h2

/-- C6 witness: the dictionary "a1" stores no boundary-only key, so the
empty word yields the empty break-point list. -/
theorem C6_empty_word_witness : Positions a1dict [] = some [] :=
  C6_empty_word_amended a1dict (by decide) (by decide)

theorem foldlM_processLine_invariant (P : HyphDict → Prop)
    (hstep : ∀ st line st2, P st → processLine st line = .ok st2 → P st2) :
    ∀ (ls : List (List Char)) (st0 st1 : HyphDict),
      P st0 → ls.foldlM processLine st0 = .ok st1 → P st1 := by
  intro ls
  induction ls with
  | nil =>
    intro st0 st1 h0 h
    simp only [List.foldlM_nil] at h
    cases h
    exact h0
  | cons l ls ih =>
    intro st0 st1 h0 h
    rw [List.foldlM_cons] at h
    cases hp : processLine st0 l with
    | error e =>
      rw [hp] at h
      exact absurd h (by simp [Bind.bind, Except.bind])
    | ok st' =>
      rw [hp] at h
      simp only [Bind.bind, Except.bind] at h
      exact ih st' st1 (hstep st0 l st' h0 hp) h

theorem NewHyphDict_invariant (P : HyphDict → Prop)
    (hstep : ∀ st line st2, P st → processLine st line = .ok st2 → P st2)
    (hinit : P ⟨[], 0⟩)
    (ls : List (List Char)) (hd : HyphDict) (h : NewHyphDict ls = .ok hd) : P hd := by
  unfold NewHyphDict at h
  split at h
  · exact absurd h (by simp)
  · exact foldlM_processLine_invariant P hstep _ _ _ hinit h

theorem processLine_ok_cases (st st2 : HyphDict) (line : List Char)
    (h : processLine st line = .ok st2) :
    st2 = st ∨
    ∃ values, lineValues line = some values ∧ hasSignal values = true ∧
      st2 = ⟨mapInsert st.patterns
               (utf8Encode (tagChars (parseMatches (lineBase (replaceHex (trimSpace line))))))
               ⟨trimStart values, trimZeros values⟩,
             if (parseMatches (lineBase (replaceHex (trimSpace line)))).length > st.maxlen
             then (parseMatches (lineBase (replaceHex (trimSpace line)))).length
             else st.maxlen⟩ := by
  unfold processLine at h
  dsimp only at h
  split at h
  · simp only [Except.ok.injEq] at h
    exact Or.inl h.symm
  · split at h
    · simp only [Except.ok.injEq] at h
      exact Or.inl h.symm
    · split at h
      · exact absurd h (by simp)
      · next values heq =>
        split at h
        · next hsig =>
          simp only [Except.ok.injEq] at h
          exact Or.inr ⟨values, heq, hsig, h.symm⟩
        · simp only [Except.ok.injEq] at h
          exact Or.inl h.symm

theorem mapInsert_mem (ps : List (GoStr × PatEntry)) (k : GoStr) (e : PatEntry)
    (p : GoStr × PatEntry) (h : p ∈ mapInsert ps k e) : p ∈ ps ∨ p = (k, e) := by
  unfold mapInsert at h
  rw [List.mem_append] at h
  rcases h with h | h
  · exact Or.inl (List.mem_of_mem_filter h)
  · simp only [List.mem_singleton] at h
    exact Or.inr h

theorem tagChars_length_le (ms : List (Option Char × Option Char)) :
    (tagChars ms).length ≤ ms.length :=
  List.length_filterMap_le _ ms

/-- C3 as stated fails: the line "a1" parses into two regexp matches
(the letter, then the digit), so maxlen is set to 2 while the one
stored key "a" has length 1; the scan of a four-rune padded word then
visits the window (0, 2), two runes wide, wider than any stored key. -/
theorem C3_maxlen_counterexample :
    NewHyphDict a1lines = .ok a1dict ∧
    a1dict.maxlen = 2 ∧
    a1dict.patterns = [([97], ⟨1, [.plain 1]⟩)] ∧
    runeCount [97] = 1 ∧
    (0, 2) ∈ windowsFor a1dict.maxlen 4 ∧
    ¬(2 - 0 ≤ runeCount [97]) := by
  refine ⟨by decide, by decide, by decide, by decide, by decide, by decide⟩

/-- C3 amended: maxlen is an upper bound on the rune length of every
stored key (it equals the largest number of regexp matches over stored
lines; a digit match not followed by a letter, as in a trailing digit,
carries no key character and pushes the count above the key length),
and the scan window width j-i never exceeds maxlen; but maxlen does
not equal the maximum key length. -/
theorem C3_maxlen_amended :
    (∀ (ls : List (List Char)) (hd : HyphDict), NewHyphDict ls = .ok hd →
      ∀ p ∈ hd.patterns, runeCount p.1 ≤ hd.maxlen) ∧
    (∀ (ml rc i j : Nat), (i, j) ∈ windowsFor ml rc → j - i ≤ ml) := by
  constructor
  · intro ls hd h
    refine NewHyphDict_invariant (fun st => ∀ p ∈ st.patterns, runeCount p.1 ≤ st.maxlen)
      ?_ (by simp) ls hd h
    intro st line st2 hP hok
    rcases processLine_ok_cases st st2 line hok with rfl | ⟨values, _, _, rfl⟩
    · exact hP
    · intro p hp
      rcases mapInsert_mem _ _ _ p hp with hold | rfl
      · have := hP p hold
        dsimp only
        split <;> omega
      · dsimp only
        rw [runeCount_encode]
        have := tagChars_length_le (parseMatches (lineBase (replaceHex (trimSpace line))))
        split <;> omega
  · intro ml rc i j h
    have := mem_windowsFor h
    omega

/-- C3 witness: the amended bound at the dictionary "a1", whose stored
key "a" has rune length 1 below maxlen 2. -/
theorem C3_maxlen_witness : runeCount [97] ≤ a1dict.maxlen :=
  C3_maxlen_amended.1 a1lines a1dict (by decide) ([97], ⟨1, [.plain 1]⟩) (by decide)

theorem parseRun_tagged_odd (vs0 : List Int) : ∀ (p : AlternativeParser) (v : HVal),
    v ∈ parseRun p vs0 → ∀ val ch ix cu, v = .tagged val ch ix cu → val % 2 = 1 := by
  induction vs0 with
  | nil => intro p v hv; simp [parseRun] at hv
  | cons a rest ih =>
    intro p v hv val ch ix cu he
    simp only [parseRun, List.mem_cons] at hv
    rcases hv with hv | hv
    · unfold parseStep at hv
      split at hv
      · next hodd =>
        rw [he] at hv
        simp only [HVal.tagged.injEq] at hv
        rw [hv.1]
        exact of_decide_eq_true (by simpa using hodd)
      · rw [he] at hv
        exact absurd hv (by simp)
    · exact ih _ v hv val ch ix cu he

theorem lineValuesCore_tagged_odd (line : List Char) (vs : List HVal)
    (h : lineValuesCore line = some vs) :
    ∀ v ∈ vs, ∀ val ch ix cu, v = .tagged val ch ix cu → val % 2 = 1 := by
  unfold lineValuesCore at h
  cases hp : lineParser line with
  | none => rw [hp] at h; exact absurd h (by simp)
  | some fac =>
    rw [hp] at h
    simp only [Option.map_some', Option.some.injEq] at h
    subst h
    intro v hv val ch ix cu he
    cases fac with
    | none =>
      simp only [factoryApply] at hv
      rw [List.mem_map] at hv
      obtain ⟨x, _, hx⟩ := hv
      rw [he] at hx
      exact absurd hx (by simp [factoryApply])
    | some p => exact parseRun_tagged_odd _ p v hv val ch ix cu he

theorem dropWhile_ne_nil {α : Type} (p : α → Bool) (l : List α) (x : α)
    (hx : x ∈ l) (hpx : p x = false) : l.dropWhile p ≠ [] := by
  induction l with
  | nil => exact absurd hx (by simp)
  | cons a t ih =>
    rw [List.dropWhile_cons]
    split
    · next hpa =>
      rcases List.mem_cons.1 hx with rfl | hxt
      · rw [hpa] at hpx; exact absurd hpx (by simp)
      · exact ih hxt
    · simp

theorem trimZeros_good (vs : List HVal) (x : HVal) (hx : x ∈ vs)
    (hpx : isPlainZero x = false) :
    trimZeros vs ≠ [] ∧ ∃ v ∈ trimZeros vs, isPlainZero v = false ∧ v ∈ vs := by
  have hmidne : vs.dropWhile isPlainZero ≠ [] := dropWhile_ne_nil _ vs x hx hpx
  set mid := vs.dropWhile isPlainZero with hmid
  have hhead1 : isPlainZero (mid.head hmidne) = false := by
    have := List.head_dropWhile_not isPlainZero vs hmidne
    simpa using this
  have hhead1mem : mid.head hmidne ∈ mid := List.head_mem hmidne
  have hrevmem : mid.head hmidne ∈ mid.reverse := by
    rw [List.mem_reverse]; exact hhead1mem
  have hresne : mid.reverse.dropWhile isPlainZero ≠ [] :=
    dropWhile_ne_nil _ _ _ hrevmem hhead1
  set res0 := mid.reverse.dropWhile isPlainZero with hres0
  have hhead2 : isPlainZero (res0.head hresne) = false := by
    have := List.head_dropWhile_not isPlainZero mid.reverse hresne
    simpa using this
  have hhead2mem : res0.head hresne ∈ res0 := List.head_mem hresne
  have htrim : trimZeros vs = res0.reverse := rfl
  have hmemvs : res0.head hresne ∈ vs := by
    have h1 : res0.head hresne ∈ mid.reverse :=
      (List.dropWhile_sublist isPlainZero).subset hhead2mem
    have h2 : res0.head hresne ∈ mid := List.mem_reverse.1 h1
    exact (List.dropWhile_sublist isPlainZero).subset h2
  refine ⟨?_, res0.head hresne, ?_, hhead2, hmemvs⟩
  · rw [htrim]
    simp only [ne_eq, List.reverse_eq_nil_iff]
    exact hresne
  · rw [htrim, List.mem_reverse]
    exact hhead2mem

theorem hasSignal_exists (vs : List HVal) (h : hasSignal vs = true) :
    ∃ x ∈ vs, isPlainZero x = false := by
  unfold hasSignal at h
  rw [List.any_eq_true] at h
  obtain ⟨x, hx, hpred⟩ := h
  refine ⟨x, hx, ?_⟩
  cases x with
  | plain i =>
    simp only [decide_eq_true_eq] at hpred
    have hne : i ≠ 0 := by omega
    simp [isPlainZero, hne]
  | tagged val ch ix cu => simp [isPlainZero]

/-- C10: an all-zero pattern line is discarded, leaving the dictionary
state (pattern map and maxlen) unchanged, and every stored entry keeps
a non-empty trimmed weight list containing at least one weight with a
non-zero value. -/
theorem C10_zero_patterns :
    (∀ (st : HyphDict) (line : List Char) (vs : List HVal),
      lineValues line = some vs → (∀ v ∈ vs, v = .plain 0) →
      processLine st line = .ok st) ∧
    (∀ (ls : List (List Char)) (hd : HyphDict), NewHyphDict ls = .ok hd →
      ∀ p ∈ hd.patterns, p.2.values ≠ [] ∧ ∃ v ∈ p.2.values, hvalValue v ≠ 0) := by
  constructor
  · intro st line vs hvs hzero
    unfold processLine
    dsimp only
    split
    · rfl
    · split
      · rfl
      · unfold lineValues at hvs
        rw [hvs]
        dsimp only
        have hsig : hasSignal vs = false := by
          unfold hasSignal
          rw [List.any_eq_false]
          intro v hv
          rw [hzero v hv]
          simp
        rw [hsig]
        simp
  · intro ls hd h
    refine NewHyphDict_invariant
      (fun st => ∀ p ∈ st.patterns, p.2.values ≠ [] ∧ ∃ v ∈ p.2.values, hvalValue v ≠ 0)
      ?_ (by simp) ls hd h
    intro st line st2 hP hok
    rcases processLine_ok_cases st st2 line hok with rfl | ⟨values, hlv, hsig, rfl⟩
    · exact hP
    · intro p hp
      rcases mapInsert_mem _ _ _ p hp with hold | rfl
      · exact hP p hold
      · dsimp only
        obtain ⟨x, hx, hpx⟩ := hasSignal_exists values hsig
        obtain ⟨hne, v, hvmem, hvnz, hvvs⟩ := trimZeros_good values x hx hpx
        refine ⟨hne, v, hvmem, ?_⟩
        cases v with
        | plain i =>
          simp only [isPlainZero, beq_iff_eq, HVal.plain.injEq, decide_eq_false_iff_not] at hvnz
          simpa [hvalValue] using hvnz
        | tagged val ch ix cu =>
          have hodd := lineValuesCore_tagged_odd _ _ hlv _ hvvs val ch ix cu rfl
          simp only [hvalValue]
          omega

/-- C10 witness: the all-zero line "a" leaves the dictionary unchanged,
and the stored entry of the dictionary "a1" is non-empty with the
non-zero weight 1. -/
theorem C10_zero_patterns_witness :
    processLine c6dict ['a'] = .ok c6dict ∧
    ((([97], ⟨1, [.plain 1]⟩) : GoStr × PatEntry).2.values ≠ [] ∧
      ∃ v ∈ (([97], ⟨1, [.plain 1]⟩) : GoStr × PatEntry).2.values, hvalValue v ≠ 0) :=
  ⟨C10_zero_patterns.1 c6dict ['a'] [.plain 0] (by decide) (by decide),
   C10_zero_patterns.2 a1lines a1dict (by decide) ([97], ⟨1, [.plain 1]⟩) (by decide)⟩

theorem processLine_safe_ok (st : HyphDict) (line : List Char)
    (hsafe : lineSafe line = true) : ∃ st2, processLine st line = .ok st2 := by
  unfold processLine
  dsimp only
  split
  · exact ⟨st, rfl⟩
  · split
    · exact ⟨st, rfl⟩
    · have hvals : ∃ vs, lineValuesCore (replaceHex (trimSpace line)) = some vs := by
        unfold lineValuesCore lineParser
        unfold lineSafe at hsafe
        dsimp only at hsafe
        by_cases hc : hasClause (replaceHex (trimSpace line)) = true
        · rw [hc] at hsafe
          simp only [Bool.not_true, Bool.false_or, decide_eq_true_eq] at hsafe
          rw [if_pos hc]
          rcases hparts : splitOnChar ',' (lineAlt (replaceHex (trimSpace line))) with
            _ | ⟨p0, _ | ⟨p1, _ | ⟨p2, ps⟩⟩⟩ <;> rw [hparts] at hsafe <;>
            simp only [List.length_nil, List.length_cons] at hsafe
          · omega
          · omega
          · omega
          · rw [newAlternativeParser, hparts]
            exact ⟨_, rfl⟩
        · rw [if_neg hc]
          exact ⟨_, rfl⟩
      obtain ⟨vs, hvs⟩ := hvals
      rw [hvs]
      dsimp only
      split
      · exact ⟨_, rfl⟩
      · exact ⟨st, rfl⟩

theorem foldlM_safe_ok : ∀ (ls : List (List Char)) (st : HyphDict),
    (∀ l ∈ ls, lineSafe l = true) → ∃ st1, ls.foldlM processLine st = .ok st1 := by
  intro ls
  induction ls with
  | nil => exact fun st _ => ⟨st, rfl⟩
  | cons l t ih =>
    intro st hsafe
    obtain ⟨st2, hst2⟩ := processLine_safe_ok st l (hsafe l (List.mem_cons_self _ _))
    obtain ⟨st1, hst1⟩ := ih st2 fun x hx => hsafe x (List.mem_cons_of_mem _ hx)
    refine ⟨st1, ?_⟩
    rw [List.foldlM_cons, hst2]
    simpa [Bind.bind, Except.bind] using hst1

/-- C4 as stated fails: the line "a1/x=y" has both a slash and an equals
sign, but its clause "x=y" splits into a single comma part, and
newAlternativeParser reads parts[1], an index-out-of-range panic that
aborts loading; the missing fields are not defaulted to zero. -/
theorem C4_malformed_clause_counterexample :
    NewHyphDict c4badLines = .error .indexOutOfRange := by decide

/-- C4 amended: loading never aborts when every exception clause has at
least three comma-separated parts (non-numeric index and cut fields then
default to zero, as "a1/x=y,p,q" shows: it loads with cut 0 and counter
started at 0), but a clause with fewer than three parts is a fatal
index-out-of-range panic. -/
theorem C4_malformed_clause_amended :
    (∀ (ls : List (List Char)), 2 ≤ ls.length →
      (∀ l ∈ ls.drop 1, lineSafe l = true) → ∃ hd, NewHyphDict ls = .ok hd) ∧
    NewHyphDict c4okLines = .ok c4okDict := by
  constructor
  · intro ls h2 hsafe
    unfold NewHyphDict
    rw [if_neg (by omega)]
    exact foldlM_safe_ok _ _ hsafe
  · decide

/-- C4 witness: the clause-free dictionary "a1" loads successfully. -/
theorem C4_malformed_clause_witness : ∃ hd, NewHyphDict a1lines = .ok hd :=
  C4_malformed_clause_amended.1 a1lines (by decide) (by decide)

end Gophen
